import Mathlib

/-!
Verification development for the `pydht` replicated key–value store.

Byte strings (keys, values, URLs) are modelled as `List Nat` of byte values.
Timestamps are modelled as `Nat` instants (ISO-8601 order is chronological
order, so any linear order is faithful).
-/

set_option maxRecDepth 1000000

namespace PyDHT

abbrev Bytes := List Nat

/-! ### SHA-1 (`hashlib.sha1`), used by the rendezvous placement

The digest is returned as the 160-bit big-endian natural number; comparing
two such numbers is the same as comparing the 20-byte digests
lexicographically, which is how Python compares `bytes`. -/

/-- 32-bit rotate left of `w` by `n` (for `0 < n < 32`, `w < 2^32`). -/
def rotl (n w : Nat) : Nat := ((w <<< n) ||| (w >>> (32 - n))) % 4294967296

/-- Big-endian byte serialization of `n` into `k` bytes. -/
def beBytes : Nat → Nat → List Nat
  | 0, _ => []
  | k + 1, n => beBytes k (n / 256) ++ [n % 256]

/-- SHA-1 message padding: `0x80`, zeros, then the 64-bit big-endian bit length. -/
def sha1_pad (msg : List Nat) : List Nat :=
  let len := msg.length
  let zeros := (119 - len % 64) % 64
  msg ++ 128 :: List.replicate zeros 0 ++ beBytes 8 (8 * len)

/-- Group bytes into big-endian 32-bit words. -/
def bytesToWords : List Nat → List Nat
  | a :: b :: c :: d :: rest => (((a * 256 + b) * 256 + c) * 256 + d) :: bytesToWords rest
  | _ => []

/-- Split a list into chunks of 64 elements (fuel-driven, enough fuel given). -/
def chunksAux : Nat → List Nat → List (List Nat)
  | 0, _ => []
  | _, [] => []
  | fuel + 1, l => l.take 64 :: chunksAux fuel (l.drop 64)

def chunks (l : List Nat) : List (List Nat) := chunksAux l.length l

/-- Extend the 16-word schedule by `k` further words
(`w[i] = rotl1 (w[i-3] xor w[i-8] xor w[i-14] xor w[i-16])`). -/
def sha1_expand (ws : List Nat) : Nat → List Nat
  | 0 => ws
  | k + 1 =>
    let n := ws.length
    sha1_expand
      (ws ++ [rotl 1 (ws.getD (n - 3) 0 ^^^ ws.getD (n - 8) 0 ^^^
                      ws.getD (n - 14) 0 ^^^ ws.getD (n - 16) 0)]) k

/-- The SHA-1 round function `f` for round `i`. -/
def sha1_f (i b c d : Nat) : Nat :=
  if i < 20 then (b &&& c) ||| ((b ^^^ 4294967295) &&& d)
  else if i < 40 then b ^^^ c ^^^ d
  else if i < 60 then (b &&& c) ||| (b &&& d) ||| (c &&& d)
  else b ^^^ c ^^^ d

/-- The SHA-1 round constant for round `i`. -/
def sha1_k (i : Nat) : Nat :=
  if i < 20 then 1518500249
  else if i < 40 then 1859775393
  else if i < 60 then 2400959708
  else 3395469782

/-- One SHA-1 round: state `(a,b,c,d,e)`, round index `i`, schedule word `wi`. -/
def sha1_round (st : Nat × Nat × Nat × Nat × Nat) (iw : Nat × Nat) :
    Nat × Nat × Nat × Nat × Nat :=
  let (a, b, c, d, e) := st
  let (i, wi) := iw
  ((rotl 5 a + sha1_f i b c d + e + sha1_k i + wi) % 4294967296, a, rotl 30 b, c, d)

/-- Compress one 64-byte block into the running hash state. -/
def sha1_compress (h : Nat × Nat × Nat × Nat × Nat) (block : List Nat) :
    Nat × Nat × Nat × Nat × Nat :=
  let ws := sha1_expand (bytesToWords block) 64
  let (h0, h1, h2, h3, h4) := h
  let (a, b, c, d, e) :=
    ((List.range 80).zip ws).foldl sha1_round (h0, h1, h2, h3, h4)
  ((h0 + a) % 4294967296, (h1 + b) % 4294967296, (h2 + c) % 4294967296,
   (h3 + d) % 4294967296, (h4 + e) % 4294967296)

/-- SHA-1 digest of a byte string as a 160-bit big-endian natural number. -/
def sha1 (msg : List Nat) : Nat :=
  let (h0, h1, h2, h3, h4) :=
    (chunks (sha1_pad msg)).foldl sha1_compress
      (1732584193, 4023233417, 2562383102, 271733878, 3285377520)
  (((h0 * 4294967296 + h1) * 4294967296 + h2) * 4294967296 + h3) * 4294967296 + h4

/-! ### Rendezvous placement (`ReplicatedStorage.rendezvous_urls`)

URLs are represented by their UTF-8 bytes, so `key + url.encode()` is plain
list append and `url != self.url` is equality of byte lists. Python's
`sorted` is a stable ascending sort on the key function, which is
extensionally `List.insertionSort` with the `≤`-comparison on scores. -/

/-- The sort key `hashlib.sha1(key + url.encode()).digest()` of a URL,
compared as a 20-byte big-endian value. -/
def score (key url : Bytes) : Nat := sha1 (key ++ url)

/-- `ReplicatedStorage.rendezvous_urls` (replicated.py lines 137-144):
sort the cluster URLs by SHA-1 score, replace the self URL by the `Local`
sentinel (`none`), and take the first `from_`. -/
def rendezvous_urls (cluster_urls : List Bytes) (self_url : Option Bytes)
    (key : Bytes) (from_ : Nat) : List (Option Bytes) :=
  if cluster_urls = [] then [none]
  else
    let ordered := List.insertionSort (fun u v => score key u ≤ score key v) cluster_urls
    (ordered.map fun url => if some url = self_url then none else some url).take from_

/-- Target-list selection shared by `ReplicatedStorage.get` (replicated.py
lines 39-43) and `ReplicatedStorage.upsert` (lines 82-86): a replicated call
addresses only the local store, otherwise rendezvous placement decides. -/
def storage_targets (cluster_urls : List Bytes) (self_url : Option Bytes)
    (key : Bytes) (from_ : Nat) (replicated : Bool) : List (Option Bytes) :=
  if replicated then [none] else rendezvous_urls cluster_urls self_url key from_

/-- The target list used when `EntityView.get` (views.py lines 20-24)
dispatches an inbound request: it calls
`self.storage.get(q.id, ack=ack, from_=from_)`, never forwarding the parsed
`x-replicated` header, so `replicated` keeps its default `False`.
The `x_replicated` argument is the value of the inbound header. -/
def entityView_get_targets (cluster_urls : List Bytes) (self_url : Option Bytes)
    (q_id : Bytes) (from_ : Nat) (x_replicated : Bool) : List (Option Bytes) :=
  storage_targets cluster_urls self_url q_id from_ false

/-- `ReplicatedStorage.check_replicas_ranges` (replicated.py lines 146-151):
`true` iff no `ValueError` is raised. `size` is `len(self.cluster_urls)`. -/
def check_replicas_ranges (cluster_size ack from_ : Nat) : Bool :=
  !(from_ < 1 || from_ > cluster_size) && !(ack < 1 || ack > from_)

/-- Modelled from the spec: the parameter discipline of §4.4, which requires
`1 ≤ from_ ≤ max(N,1)` and `1 ≤ ack ≤ from_` (the code's
`check_replicas_ranges` uses `N` instead of `max(N,1)`). -/
def check_replicas_spec (cluster_size ack from_ : Nat) : Bool :=
  (1 ≤ from_ && from_ ≤ max cluster_size 1) && (1 ≤ ack && ack ≤ from_)

/-! Concrete cluster used for counterexamples: the three URLs of spec §8 S2
and the key `"k1"`, as UTF-8 bytes. -/

/-- `"http://a:8001"` as UTF-8 bytes. -/
def urlA : Bytes := [104, 116, 116, 112, 58, 47, 47, 97, 58, 56, 48, 48, 49]

/-- `"http://b:8002"` as UTF-8 bytes. -/
def urlB : Bytes := [104, 116, 116, 112, 58, 47, 47, 98, 58, 56, 48, 48, 50]

/-- `"http://c:8003"` as UTF-8 bytes. -/
def urlC : Bytes := [104, 116, 116, 112, 58, 47, 47, 99, 58, 56, 48, 48, 51]

/-- The key `"k1"` as UTF-8 bytes. -/
def key1 : Bytes := [107, 49]

/-! ### Records and the local store

`pydht.dao.Record` and the record-aware `DAO` (get/upsert over records with
timestamps) are imported by replicated.py and client.py but are not in this
snapshot; the dao.py present is an earlier, record-less stage. The store
below is modelled from the spec (§3, §4.1). -/

/-- A stored record: optional value bytes plus a timestamp. A record with
`value = none` is a tombstone. -/
structure Record where
  value : Option Bytes
  timestamp : Nat
deriving DecidableEq

/-- Modelled from the spec: the LocalStore representation of §4.1 — two
logically separate maps, one holding values (present only for non-tombstone
records) and one holding timestamps (present for every live record,
tombstone or not). Missing from src/: the record-aware `pydht.dao.DAO`. -/
structure LocalStore where
  values : Bytes → Option Bytes
  timestamps : Bytes → Option Nat

/-- The empty store. -/
def LocalStore.empty : LocalStore := ⟨fun _ => none, fun _ => none⟩

/-- Modelled from the spec: `get(key) → Record`, or NotFound (`none`) when the
key has no record at all; a present tombstone is returned like any record. -/
def LocalStore.get (s : LocalStore) (k : Bytes) : Option Record :=
  match s.timestamps k with
  | none => none
  | some t => some ⟨s.values k, t⟩

/-- Modelled from the spec: `upsert(key, record)` unconditionally writes the
record, including tombstones (both maps updated atomically). -/
def LocalStore.upsert (s : LocalStore) (k : Bytes) (r : Record) : LocalStore where
  values := fun k' => if k' = k then r.value else s.values k'
  timestamps := fun k' => if k' = k then some r.timestamp else s.timestamps k'

/-! ### Coordinator reply merging (`ReplicatedStorage.get`, lines 65-67)

`replies` is the list of counted replies in arrival order: `some r` for a
`Present` record (possibly a tombstone), `none` for `Absent` (KeyError).
`Record` is a NamedTuple-style pair, so every record is truthy and
`not any(replies)` holds exactly when all replies are `None`, and
`filter(None, replies)` keeps exactly the records. -/

/-- Python `max(records, key=lambda r: r.timestamp)`: the *first* record
attaining the maximal timestamp (`max` replaces the best only on a strictly
greater key). `none` models the empty-iterable case. -/
def maxByTimestamp : List Record → Option Record
  | [] => none
  | r :: rs =>
    some (rs.foldl (fun best x => if best.timestamp < x.timestamp then x else best) r)

/-- replicated.py lines 65-67: `if not any(replies): raise KeyError(...)` then
`return max(filter(None, replies), key=lambda r: r.timestamp)`; the result
`none` models the KeyError (NotFound). -/
def mergeReplies (replies : List (Option Record)) : Option Record :=
  maxByTimestamp (replies.filterMap id)

/-! ### Coordinator collection loops and task cancellation -/

/-- Arrival-order outcome of one replica `get` task: a record, a `KeyError`
(absent), or an `aiohttp.ClientError` (transport failure). -/
inductive GetReply
  | found (r : Record)
  | keyError
  | clientError
deriving DecidableEq

/-- Whether a reply counts toward `ack` (everything but a transport error). -/
def countedReply : GetReply → Bool
  | .clientError => false
  | _ => true

/-- Number of counted replies among all task outcomes. -/
def countCounted (outcomes : List GetReply) : Nat :=
  (outcomes.filter countedReply).length

/-- The `for task in asyncio.as_completed(tasks)` loop of
`ReplicatedStorage.get` (replicated.py lines 47-57): accumulate replies and
break once `len(replies) >= ack`. Returns the collected replies and the
number of tasks awaited before the loop exited. -/
def getLoop (ack : Nat) : List GetReply → List (Option Record) →
    List (Option Record) × Nat
  | [], acc => (acc, 0)
  | .found r :: rest, acc =>
    if ack ≤ (acc ++ [some r]).length then (acc ++ [some r], 1)
    else ((getLoop ack rest (acc ++ [some r])).1,
          (getLoop ack rest (acc ++ [some r])).2 + 1)
  | .keyError :: rest, acc =>
    if ack ≤ (acc ++ [none]).length then (acc ++ [none], 1)
    else ((getLoop ack rest (acc ++ [none])).1,
          (getLoop ack rest (acc ++ [none])).2 + 1)
  | .clientError :: rest, acc =>
    if ack ≤ acc.length then (acc, 1)
    else ((getLoop ack rest acc).1, (getLoop ack rest acc).2 + 1)

/-- Result of a coordinator `get`. -/
inductive GetOutcome
  | notEnoughReplicas
  | notFound
  | record (r : Record)
deriving DecidableEq

/-- Trace of one coordinator call: its result, how many tasks were awaited,
how many `task.cancel()` calls were issued, and how many tasks were launched. -/
structure CallTrace (α : Type) where
  result : α
  processed : Nat
  cancelled : Nat
  launched : Nat
deriving DecidableEq

/-- `ReplicatedStorage.get` (replicated.py lines 44-67) after the tasks are
launched, as a function of the arrival-order task outcomes: run the
collection loop; raise `NotEnoughReplicasError` when fewer than `ack` replies
were collected (no cancellation on that path); otherwise cancel *all* tasks
(`for task in tasks: task.cancel()`) and merge by last-write-wins. -/
def replicatedStorage_get (outcomes : List GetReply) (ack : Nat) :
    CallTrace GetOutcome :=
  let res := getLoop ack outcomes []
  if res.1.length < ack then
    ⟨.notEnoughReplicas, res.2, 0, outcomes.length⟩
  else
    match mergeReplies res.1 with
    | none => ⟨.notFound, res.2, outcomes.length, outcomes.length⟩
    | some r => ⟨.record r, res.2, outcomes.length, outcomes.length⟩

/-- The collection loop of `ReplicatedStorage.upsert` (replicated.py lines
93-100): count successes (`true` = task succeeded, `false` = `ClientError`),
break once `success >= ack`. Returns the success count and the number of
tasks awaited. -/
def upsertLoop (ack : Nat) : List Bool → Nat → Nat × Nat
  | [], s => (s, 0)
  | true :: rest, s =>
    if ack ≤ s + 1 then (s + 1, 1)
    else ((upsertLoop ack rest (s + 1)).1, (upsertLoop ack rest (s + 1)).2 + 1)
  | false :: rest, s =>
    if ack ≤ s then (s, 1)
    else ((upsertLoop ack rest s).1, (upsertLoop ack rest s).2 + 1)

/-- Result of a coordinator `upsert`. -/
inductive UpsertOutcome
  | ok
  | notEnoughReplicas
deriving DecidableEq

/-- `ReplicatedStorage.upsert` (replicated.py lines 87-104) after the tasks
are launched: run the loop and fail if fewer than `ack` successes. The
function body contains no `task.cancel()` at all, so `cancelled = 0` on
every path. -/
def replicatedStorage_upsert (outcomes : List Bool) (ack : Nat) :
    CallTrace UpsertOutcome :=
  let res := upsertLoop ack outcomes 0
  if res.1 < ack then
    ⟨.notEnoughReplicas, res.2, 0, outcomes.length⟩
  else
    ⟨.ok, res.2, 0, outcomes.length⟩

/-! ### The entity GET response (views.py) -/

/-- An HTTP response as far as `EntityView.get` shapes it: status code, the
optional `x-last-modified` header, and the optional body. -/
structure EntityResponse where
  status : Nat
  x_last_modified : Option Nat
  body : Option Bytes
deriving DecidableEq

/-- `not_found()` (views.py lines 93-96): `web.HTTPNotFound(text="Not found")`
with the preserve marker set — and no headers, in particular no
`x-last-modified`. -/
def not_found_response : EntityResponse := ⟨404, none, none⟩

/-- `EntityView.get` (views.py lines 20-36) mapped over the storage outcome:
`KeyError` → `not_found()`; `NotEnoughReplicasError` → 504; a record whose
`value is None` → `not_found()`; otherwise 200 with the value as body and
`x-last-modified` set to the record's timestamp. -/
def entityView_get_response : GetOutcome → EntityResponse
  | .notFound => not_found_response
  | .notEnoughReplicas => ⟨504, none, none⟩
  | .record r =>
    match r.value with
    | none => not_found_response
    | some v => ⟨200, some r.timestamp, some v⟩

/-! ### `DAO.range` (dao.py lines 38-47)

The on-disk container is the abstract ordered byte-keyed map that spec §1
declares an external collaborator: an association list `db` (strictly
ascending by key when well-formed), `dbGet` is `self.db[key]` and `nextkey`
is `self.db.nextkey(key)`, the least key strictly greater than the argument.
Keys are any linearly ordered type (byte strings compare lexicographically). -/

/-- `self.db[key]`: the value stored at `key`, or `none` for a `KeyError`. -/
def dbGet {K V : Type} [DecidableEq K] : List (K × V) → K → Option V
  | [], _ => none
  | (k0, v0) :: rest, k => if k = k0 then some v0 else dbGet rest k

/-- `self.db.nextkey(key)` on the ordered map: the first key of the
(ascending) list strictly greater than `k`, or `none` at the end. -/
def nextkey {K V : Type} [LinearOrder K] : List (K × V) → K → Option K
  | [], _ => none
  | (k0, _) :: rest, k => if k < k0 then some k0 else nextkey rest k

/-- The `while` loop of `DAO.range`: stop when the key is `None` or equals
`to_key`; stop on a `KeyError`; otherwise yield and advance to
`nextkey`. `fuel` bounds the iteration count (the caller passes enough). -/
def rangeAux {K V : Type} [LinearOrder K] (db : List (K × V)) (to_key : Option K) :
    Nat → Option K → List (K × V)
  | 0, _ => []
  | _, none => []
  | fuel + 1, some k =>
    if some k = to_key then []
    else
      match dbGet db k with
      | none => []
      | some v => (k, v) :: rangeAux db to_key fuel (nextkey db k)

/-- `DAO.range(from_key, to_key)` (dao.py lines 38-47), as the list of
yielded `(key, value)` pairs. `db.length + 1` fuel covers the longest
possible `nextkey` chain. -/
def range {K V : Type} [LinearOrder K] (db : List (K × V)) (from_key : K)
    (to_key : Option K) : List (K × V) :=
  rangeAux db to_key (db.length + 1) (some from_key)

/-! ### The `replicas` query validator (client.py lines 121-132) -/

/-- Numeric value of a digit string, as Python `int()` on ASCII digits. -/
def digitsToNat (ds : List Char) : Nat :=
  ds.foldl (fun acc c => 10 * acc + (c.toNat - 48)) 0

/-- `EntityQuery.check_replicas` (client.py lines 121-132): the pydantic
validator for the `replicas` query value. `re.match(r"(\d+)/(\d+)", value)`
anchors at the start only, so the two greedy digit groups match a *prefix*
of the string and trailing characters are ignored. `none` models the raised
`ValueError` (surfacing as a pydantic ValidationError, hence HTTP 400);
`some (ack, from_)` is the accepted pair. Digits are modelled as ASCII.
`check_replicas_tail` handles the value after the leading digit run `d1`:
the slash, the second digit run, and the range checks. -/
def check_replicas_tail (d1 : List Char) : List Char → Option (Nat × Nat)
  | [] => none
  | c :: rest2 =>
    if c = '/' then
      let d2 := rest2.takeWhile Char.isDigit
      if d2 = [] then none
      else
        let ack := digitsToNat d1
        let from_ := digitsToNat d2
        if from_ ≤ 0 ∨ ack ≤ 0 then none
        else if from_ < ack then none
        else some (ack, from_)
    else none

/-- The validator entry point: greedy leading digit run, then
`check_replicas_tail` on the remainder. -/
def check_replicas (value : List Char) : Option (Nat × Nat) :=
  let d1 := value.takeWhile Char.isDigit
  if d1 = [] then none
  else check_replicas_tail d1 (value.dropWhile Char.isDigit)

/-- Modelled from the spec (§4.5): the whole `replicas` string must match
`^\d+/\d+$` with both numbers positive and the first no larger than the
second; anything else is rejected with 400. -/
def replicas_spec_accepts (value : List Char) : Bool :=
  let d1 := value.takeWhile Char.isDigit
  match value.dropWhile Char.isDigit with
  | [] => false
  | c :: rest2 =>
    c = '/' && !d1.isEmpty && !rest2.isEmpty && rest2.all Char.isDigit &&
      decide (0 < digitsToNat d1) && decide (0 < digitsToNat rest2) &&
      decide (digitsToNat d1 ≤ digitsToNat rest2)

/-! ### The internal-hop URL round trip (client.py lines 100-104, 117-136)

`EntityClient.url_for` puts `key.decode()` (strict UTF-8) into the `id`
query parameter, which `urlencode`/`quote_plus` percent-encodes over its
UTF-8 bytes; on the receiving side the HTTP stack percent-decodes the query
value into a `str` and pydantic turns the `str` into `bytes` by UTF-8
encoding (with `min_length=1`). Code points are modelled as `Nat`. -/

/-- Two-byte UTF-8 sequence after lead byte `b ∈ [C2, DF]`: one
continuation byte. -/
def utf8Decode2 (b : Nat) : List Nat → Option (Nat × List Nat)
  | b1 :: rest2 =>
    if 128 ≤ b1 ∧ b1 < 192 then some ((b - 192) * 64 + (b1 - 128), rest2)
    else none
  | _ => none

/-- Three-byte UTF-8 sequence after lead byte `b ∈ [E0, EF]`: the first
continuation range depends on the lead (overlong guard for E0, surrogate
guard for ED). -/
def utf8Decode3 (b : Nat) : List Nat → Option (Nat × List Nat)
  | b1 :: b2 :: rest2 =>
    if (if b = 224 then 160 ≤ b1 ∧ b1 < 192
        else if b = 237 then 128 ≤ b1 ∧ b1 < 160
        else 128 ≤ b1 ∧ b1 < 192) ∧ 128 ≤ b2 ∧ b2 < 192 then
      some (((b - 224) * 64 + (b1 - 128)) * 64 + (b2 - 128), rest2)
    else none
  | _ => none

/-- Four-byte UTF-8 sequence after lead byte `b ∈ [F0, F4]` (overlong guard
for F0, U+10FFFF cap for F4). -/
def utf8Decode4 (b : Nat) : List Nat → Option (Nat × List Nat)
  | b1 :: b2 :: b3 :: rest2 =>
    if (if b = 240 then 144 ≤ b1 ∧ b1 < 192
        else if b = 244 then 128 ≤ b1 ∧ b1 < 144
        else 128 ≤ b1 ∧ b1 < 192) ∧ 128 ≤ b2 ∧ b2 < 192 ∧
        128 ≤ b3 ∧ b3 < 192 then
      some ((((b - 240) * 64 + (b1 - 128)) * 64 + (b2 - 128)) * 64
        + (b3 - 128), rest2)
    else none
  | _ => none

/-- Decode one scalar led by byte `b`: `(code point, remaining bytes)`, or
`none` on any invalid sequence (stray continuation bytes, truncation,
overlong forms C0/C1, E0 80-9F, F0 80-8F, surrogates ED A0-BF, leads ≥ F5). -/
def utf8DecodeStep (b : Nat) (rest : List Nat) : Option (Nat × List Nat) :=
  if b < 128 then some (b, rest)
  else if b < 194 then none
  else if b < 224 then utf8Decode2 b rest
  else if b < 240 then utf8Decode3 b rest
  else if b < 245 then utf8Decode4 b rest
  else none

/-- Strict UTF-8 decoding loop. Each step consumes at least one byte, so the
entry point's fuel (the byte count) always suffices. -/
def utf8DecodeAux : Nat → List Nat → Option (List Nat)
  | _, [] => some []
  | 0, _ :: _ => none
  | fuel + 1, b :: rest =>
    match utf8DecodeStep b rest with
    | none => none
    | some (c, rest2) => (utf8DecodeAux fuel rest2).map (c :: ·)

/-- Strict UTF-8 decoding, as Python `bytes.decode()`: the code points, or
`none` on invalid UTF-8. -/
def utf8Decode (bs : List Nat) : Option (List Nat) := utf8DecodeAux bs.length bs

/-- UTF-8 encoding of one code point (Python `str.encode()`). -/
def utf8EncodeChar (c : Nat) : List Nat :=
  if c < 128 then [c]
  else if c < 2048 then [192 + c / 64, 128 + c % 64]
  else if c < 65536 then [224 + c / 4096, 128 + c / 64 % 64, 128 + c % 64]
  else [240 + c / 262144, 128 + c / 4096 % 64, 128 + c / 64 % 64, 128 + c % 64]

/-- UTF-8 encoding of a code-point string. -/
def utf8Encode : List Nat → List Nat
  | [] => []
  | c :: cs => utf8EncodeChar c ++ utf8Encode cs

/-- The bytes `quote_plus` leaves as-is: ASCII letters, digits, and
`_`, `.`, `-`, `~`. -/
def isUrlSafe (b : Nat) : Bool :=
  (48 ≤ b && b ≤ 57) || (65 ≤ b && b ≤ 90) || (97 ≤ b && b ≤ 122) ||
    b == 95 || b == 46 || b == 45 || b == 126

/-- Upper-case hex digit of a nibble, as an ASCII byte. -/
def hexDigit (n : Nat) : Nat := if n < 10 then 48 + n else 55 + n

/-- `urllib.parse.quote_plus` over UTF-8 bytes: safe bytes unchanged, space
becomes `+` (43), everything else `%XX`. -/
def percentEncode : List Nat → List Nat
  | [] => []
  | b :: bs =>
    (if isUrlSafe b then [b]
     else if b = 32 then [43]
     else [37, hexDigit (b / 16), hexDigit (b % 16)]) ++ percentEncode bs

/-- Value of an ASCII hex digit byte (either case), or `none`. -/
def hexVal (c : Nat) : Option Nat :=
  if 48 ≤ c ∧ c ≤ 57 then some (c - 48)
  else if 65 ≤ c ∧ c ≤ 70 then some (c - 55)
  else if 97 ≤ c ∧ c ≤ 102 then some (c - 87)
  else none

/-- A two-hex-digit escape body: the byte value and remaining input, or
`none` when malformed. -/
def hexPair : List Nat → Option (Nat × List Nat)
  | h :: l :: rest2 =>
    match hexVal h, hexVal l with
    | some hv, some lv => some (hv * 16 + lv, rest2)
    | _, _ => none
  | _ => none

/-- Query-string unquoting (`unquote_plus`): `+` (43) becomes space, `%XX`
becomes the byte, malformed escapes are kept verbatim. The fuel argument
only drives the recursion; the entry point supplies the list length, which
always suffices since every step consumes at least one element. -/
def percentDecodeAux : Nat → List Nat → List Nat
  | 0, _ => []
  | _ + 1, [] => []
  | fuel + 1, b :: rest =>
    if b = 43 then 32 :: percentDecodeAux fuel rest
    else if b = 37 then
      match hexPair rest with
      | some vr => vr.1 :: percentDecodeAux fuel vr.2
      | none => 37 :: percentDecodeAux fuel rest
    else b :: percentDecodeAux fuel rest

/-- See `percentDecodeAux`. -/
def percentDecode (l : List Nat) : List Nat := percentDecodeAux l.length l

/-- `EntityClient.url_for` (client.py lines 100-104), restricted to the `id`
query value: `key.decode()` raises `UnicodeDecodeError` on invalid UTF-8
(`none`); otherwise `urlencode` percent-encodes the UTF-8 bytes of the
decoded string. -/
def url_for_id (key : List Nat) : Option (List Nat) :=
  match utf8Decode key with
  | none => none
  | some cs => some (percentEncode (utf8Encode cs))

/-- Parsing the `id` query value on the receiving node: the HTTP stack
percent-decodes the value into a `str` (UTF-8), and the pydantic
`EntityQuery` (client.py lines 117-136) converts the `str` to `bytes` by
UTF-8 encoding, rejecting an empty result (`min_length=1`). -/
def parse_id (q : List Nat) : Option (List Nat) :=
  match utf8Decode (percentDecode q) with
  | none => none
  | some cs =>
    if utf8Encode cs = [] then none else some (utf8Encode cs)

/-! ### Theorems about placement and dispatch -/

/-- C1: a node that receives an entity request carrying `x-replicated: yes`
should use the target list exactly `[Local]`. The view drops the header:
on the `"http://b:8002"` node of the three-node cluster, a replicated GET for
key `"k1"` is dispatched with target list `[Remote "http://c:8003"]` — an
outbound replica call — although the coordinator logic itself, had the flag
been forwarded, would have produced `[Local]`. -/
theorem entityView_drops_replicated_flag :
    entityView_get_targets [urlA, urlB, urlC] (some urlB) key1 1 true = [some urlC] ∧
    storage_targets [urlA, urlB, urlC] (some urlB) key1 1 true = [none] :=
  ⟨by decide, rfl⟩

/-- C3 counterexample: `rendezvous_urls` sorts by SHA-1 score in *ascending*
order, so for key `"k1"` and the three-URL cluster the full ordering is
`[c, b, a]` and the first-choice target `"http://c:8003"` has a strictly
*smaller* score than `"http://a:8001"` — not the maximal score the claim
demands. -/
theorem rendezvous_not_descending :
    rendezvous_urls [urlA, urlB, urlC] none key1 3
        = [some urlC, some urlB, some urlA] ∧
    score key1 urlC < score key1 urlA :=
  ⟨by decide, by decide⟩

/-- C3 (amended): for every key and non-empty URL list, `rendezvous_urls`
orders the URLs by SHA-1 score in *ascending* order (stably), takes the first
`from_`, and replaces the self URL by the `Local` sentinel; the first-choice
URL has the *minimal* SHA-1 score. -/
theorem rendezvous_sorts_ascending (key u0 : Bytes) (urls' : List Bytes)
    (self : Option Bytes) (from_ : Nat) :
    ∃ ordered : List Bytes,
      ordered.Perm (u0 :: urls') ∧
      List.Sorted (fun u v => score key u ≤ score key v) ordered ∧
      rendezvous_urls (u0 :: urls') self key from_ =
        (ordered.map fun url => if some url = self then none else some url).take from_ ∧
      ∀ u, ordered.head? = some u → ∀ v ∈ u0 :: urls', score key u ≤ score key v := by
  set r : Bytes → Bytes → Prop := fun u v => score key u ≤ score key v with hr
  haveI : IsTotal Bytes r := ⟨fun a b => Nat.le_total _ _⟩
  haveI : IsTrans Bytes r := ⟨fun _ _ _ => Nat.le_trans⟩
  refine ⟨List.insertionSort r (u0 :: urls'),
    List.perm_insertionSort r (u0 :: urls'), List.sorted_insertionSort r _, ?_, ?_⟩
  · simp [rendezvous_urls]
  · intro u hu v hv
    have hv' : v ∈ List.insertionSort r (u0 :: urls') :=
      ((List.perm_insertionSort r (u0 :: urls')).mem_iff).mpr hv
    have hsorted := List.sorted_insertionSort r (u0 :: urls')
    cases hsort : List.insertionSort r (u0 :: urls') with
    | nil => rw [hsort] at hv'; cases hv'
    | cons w ws =>
      rw [hsort] at hu hv' hsorted
      have huw : w = u := by simpa using hu
      subst huw
      rcases List.mem_cons.mp hv' with h | h
      · subst h; exact Nat.le_refl _
      · exact List.rel_of_sorted_cons hsorted v h

/-- C5: the parameter check must accept `ack = from_ = 1` on an empty
cluster (per spec §4.4, the bound is `max(N,1)`), but the code bounds
`from_` by `N = 0` and rejects it, while the check holds whenever the
cluster is non-empty. -/
theorem check_replicas_empty_cluster_bug :
    check_replicas_ranges 0 1 1 = false ∧ check_replicas_spec 0 1 1 = true ∧
    ∀ n ack from_, 1 ≤ n →
      check_replicas_ranges n ack from_ = check_replicas_spec n ack from_ := by
  refine ⟨rfl, rfl, ?_⟩
  intro n ack from_ hn
  have hmax : max n 1 = n := Nat.max_eq_left hn
  rw [Bool.eq_iff_iff]
  simp only [check_replicas_ranges, check_replicas_spec, hmax, Bool.and_eq_true,
    Bool.or_eq_true, Bool.not_eq_true', Bool.or_eq_false_iff, decide_eq_true_eq,
    decide_eq_false_iff_not, Nat.not_lt]

/-- Witness for the universally quantified part of
`check_replicas_empty_cluster_bug` at a concrete input. -/
theorem check_replicas_empty_cluster_bug_witness :
    check_replicas_ranges 3 2 3 = check_replicas_spec 3 2 3 :=
  check_replicas_empty_cluster_bug.2.2 3 2 3 (by decide)

/-! ### Theorems about the local store and the merge rule -/

/-- C2: after `upsert(K, Record(none, T))` the store returns the tombstone
`Record(none, T)` on `get(K)` — not NotFound — and any upsert to a different
key preserves it. -/
theorem tombstone_visible (s : LocalStore) (k : Bytes) (t : Nat) :
    (s.upsert k ⟨none, t⟩).get k = some ⟨none, t⟩ ∧
    ∀ k' r', k' ≠ k →
      ((s.upsert k ⟨none, t⟩).upsert k' r').get k = some ⟨none, t⟩ := by
  refine ⟨by simp [LocalStore.get, LocalStore.upsert], ?_⟩
  intro k' r' h
  simp [LocalStore.get, LocalStore.upsert, Ne.symm h]

/-- Witness for `tombstone_visible` at a concrete store and keys. -/
theorem tombstone_visible_witness :
    ((LocalStore.empty.upsert [1] ⟨none, 5⟩).upsert [2] ⟨some [9], 6⟩).get [1]
      = some ⟨none, 5⟩ :=
  (tombstone_visible LocalStore.empty [1] 5).2 [2] ⟨some [9], 6⟩ (by decide)

/-- Helper: Python's `max(r :: rs, key=timestamp)` is the *first* record of
maximal timestamp: it occurs in the list and everything strictly before that
occurrence has a strictly smaller timestamp. -/
theorem foldl_max_first :
    ∀ (rs : List Record) (r : Record),
      ∃ (m : Record) (l₁ l₂ : List Record),
        rs.foldl (fun best x => if best.timestamp < x.timestamp then x else best) r
          = m ∧
        r :: rs = l₁ ++ m :: l₂ ∧
        (∀ x ∈ r :: rs, x.timestamp ≤ m.timestamp) ∧
        (∀ x ∈ l₁, x.timestamp < m.timestamp)
  | [], r => ⟨r, [], [], rfl, rfl, by simp, by simp⟩
  | x :: rs, r => by
    by_cases h : r.timestamp < x.timestamp
    · obtain ⟨m, l₁, l₂, hfold, hdecomp, hmax, hlt⟩ := foldl_max_first rs x
      refine ⟨m, r :: l₁, l₂, ?_, ?_, ?_, ?_⟩
      · simpa [if_pos h] using hfold
      · simpa using hdecomp
      · intro y hy
        simp only [List.mem_cons] at hy
        obtain h1 | h1 := hy
        · subst h1
          exact Nat.le_of_lt (Nat.lt_of_lt_of_le h (hmax x (by simp)))
        · exact hmax y (List.mem_cons.mpr h1)
      · intro y hy
        simp only [List.mem_cons] at hy
        obtain h1 | h1 := hy
        · subst h1
          exact Nat.lt_of_lt_of_le h (hmax x (by simp))
        · exact hlt y h1
    · obtain ⟨m, l₁, l₂, hfold, hdecomp, hmax, hlt⟩ := foldl_max_first rs r
      have hxm : x.timestamp ≤ m.timestamp :=
        Nat.le_trans (Nat.le_of_not_lt h) (hmax r (by simp))
      have hymem : ∀ y ∈ r :: x :: rs, y.timestamp ≤ m.timestamp := by
        intro y hy
        simp only [List.mem_cons] at hy
        obtain h1 | h1 | h1 := hy
        · subst h1; exact hmax y (by simp)
        · subst h1; exact hxm
        · exact hmax y (by simp [h1])
      cases l₁ with
      | nil =>
        have hrm : r = m := by simpa using congrArg (fun l => l.head?) hdecomp
        refine ⟨m, [], x :: rs, ?_, ?_, hymem, by simp⟩
        · simpa [if_neg h] using hfold
        · simp [hrm]
      | cons a l₁ =>
        have ha : r = a := by simpa using congrArg (fun l => l.head?) hdecomp
        have hram : r.timestamp < m.timestamp := by
          rw [ha]; exact hlt a (by simp)
        have hrs : rs = l₁ ++ m :: l₂ := by
          simpa using congrArg List.tail hdecomp
        refine ⟨m, r :: x :: l₁, l₂, ?_, ?_, hymem, ?_⟩
        · simpa [if_neg h] using hfold
        · simp [hrs]
        · intro y hy
          simp only [List.mem_cons] at hy
          obtain h1 | h1 | h1 := hy
          · subst h1; exact hram
          · subst h1; exact Nat.lt_of_le_of_lt (Nat.le_of_not_lt h) hram
          · exact hlt y (by simp [h1])

/-- C4 counterexample: two counted replies tie on timestamp 5, the tombstone
arriving first; the merge returns the tombstone, not the present value the
claim demands. -/
theorem merge_tie_keeps_tombstone :
    mergeReplies [some ⟨none, 5⟩, some ⟨some [1], 5⟩] = some ⟨none, 5⟩ ∧
    mergeReplies [some ⟨none, 5⟩, some ⟨some [1], 5⟩] ≠ some ⟨some [1], 5⟩ := by
  exact ⟨rfl, by decide⟩

/-- C4 (amended): if every counted reply is Absent the get fails with
NotFound; otherwise it returns the record with the maximum timestamp among
the counted replies, ties broken by keeping the earliest-collected reply
(arrival order) — which may be a tombstone even when a present value ties. -/
theorem merge_lww_first_arrival (replies : List (Option Record)) :
    ((∀ o ∈ replies, o = none) → mergeReplies replies = none) ∧
    ∀ r rs, replies.filterMap id = r :: rs →
      ∃ (m : Record) (l₁ l₂ : List Record),
        mergeReplies replies = some m ∧
        r :: rs = l₁ ++ m :: l₂ ∧
        (∀ x ∈ r :: rs, x.timestamp ≤ m.timestamp) ∧
        (∀ x ∈ l₁, x.timestamp < m.timestamp) := by
  constructor
  · intro h
    have hnil : replies.filterMap id = [] := by
      refine List.filterMap_eq_nil_iff.mpr ?_
      intro a ha
      simp [h a ha]
    simp [mergeReplies, hnil, maxByTimestamp]
  · intro r rs hf
    obtain ⟨m, l₁, l₂, hfold, hdecomp, hmax, hlt⟩ := foldl_max_first rs r
    refine ⟨m, l₁, l₂, ?_, hdecomp, hmax, hlt⟩
    simp [mergeReplies, hf, maxByTimestamp, hfold]

/-- Witness for `merge_lww_first_arrival` at a concrete reply list. -/
theorem merge_lww_first_arrival_witness :
    ∃ (m : Record) (l₁ l₂ : List Record),
      mergeReplies [some ⟨some [7], 3⟩, none, some ⟨none, 9⟩] = some m ∧
      (⟨some [7], 3⟩ : Record) :: [⟨none, 9⟩] = l₁ ++ m :: l₂ ∧
      (∀ x ∈ (⟨some [7], 3⟩ : Record) :: [⟨none, 9⟩], x.timestamp ≤ m.timestamp) ∧
      (∀ x ∈ l₁, x.timestamp < m.timestamp) :=
  (merge_lww_first_arrival [some ⟨some [7], 3⟩, none, some ⟨none, 9⟩]).2
    ⟨some [7], 3⟩ [⟨none, 9⟩] (by decide)

/-! ### Theorems about early completion and cancellation -/

/-- Helper: `countCounted` unfolded over a cons cell. -/
theorem countCounted_cons (o : GetReply) (rest : List GetReply) :
    countCounted (o :: rest)
      = (if countedReply o = true then 1 else 0) + countCounted rest := by
  simp only [countCounted, List.filter_cons]
  split <;> simp [Nat.add_comm]

/-- Helper: the get collection loop gathers exactly
`min ack (collected so far + counted outcomes)` replies. -/
theorem getLoop_length (ack : Nat) :
    ∀ (outcomes : List GetReply) (acc : List (Option Record)),
      acc.length < ack →
      (getLoop ack outcomes acc).1.length
        = min ack (acc.length + countCounted outcomes)
  | [], acc, h => by
    simp only [getLoop, countCounted, List.filter_nil, List.length_nil, Nat.add_zero]
    omega
  | .found r :: rest, acc, h => by
    have hcc : countCounted (GetReply.found r :: rest) = 1 + countCounted rest := by
      simp [countCounted, List.filter_cons, countedReply, Nat.add_comm]
    rw [hcc]
    simp only [getLoop]
    by_cases hb : ack ≤ (acc ++ [some r]).length
    · rw [if_pos hb]
      simp only [List.length_append, List.length_cons, List.length_nil] at hb ⊢
      omega
    · rw [if_neg hb]
      have ih := getLoop_length ack rest (acc ++ [some r]) (Nat.lt_of_not_le hb)
      simp only [List.length_append, List.length_cons, List.length_nil] at ih ⊢
      omega
  | .keyError :: rest, acc, h => by
    have hcc : countCounted (GetReply.keyError :: rest) = 1 + countCounted rest := by
      simp [countCounted, List.filter_cons, countedReply, Nat.add_comm]
    rw [hcc]
    simp only [getLoop]
    by_cases hb : ack ≤ (acc ++ [none]).length
    · rw [if_pos hb]
      simp only [List.length_append, List.length_cons, List.length_nil] at hb ⊢
      omega
    · rw [if_neg hb]
      have ih := getLoop_length ack rest (acc ++ [none]) (Nat.lt_of_not_le hb)
      simp only [List.length_append, List.length_cons, List.length_nil] at ih ⊢
      omega
  | .clientError :: rest, acc, h => by
    have hcc : countCounted (GetReply.clientError :: rest) = countCounted rest := by
      simp [countCounted, List.filter_cons, countedReply]
    rw [hcc]
    simp only [getLoop]
    rw [if_neg (Nat.not_le_of_lt h)]
    exact getLoop_length ack rest acc h

/-- C7 (amended): once the ack threshold is reached, `get` cancels every
launched task (completed or not) before returning and cannot fail with
NotEnoughReplicas; `upsert` never cancels any task on any path — its
outstanding tasks are merely handed to the background watcher. -/
theorem cancellation_behavior :
    (∀ (outcomes : List GetReply) (ack : Nat), 1 ≤ ack →
      ack ≤ countCounted outcomes →
      (replicatedStorage_get outcomes ack).cancelled =
        (replicatedStorage_get outcomes ack).launched ∧
      (replicatedStorage_get outcomes ack).result ≠ .notEnoughReplicas) ∧
    ∀ (outcomes : List Bool) (ack : Nat),
      (replicatedStorage_upsert outcomes ack).cancelled = 0 := by
  constructor
  · intro outcomes ack h1 h2
    have hlen : (getLoop ack outcomes []).1.length
        = min ack (0 + countCounted outcomes) :=
      getLoop_length ack outcomes [] (by simpa using h1)
    have hlen' : ¬((getLoop ack outcomes []).1.length < ack) := by omega
    simp only [replicatedStorage_get, if_neg hlen']
    cases mergeReplies (getLoop ack outcomes []).1 <;> simp
  · intro outcomes ack
    simp only [replicatedStorage_upsert]
    split <;> rfl

/-- Witness for the get part of `cancellation_behavior`. -/
theorem cancellation_behavior_witness :
    (replicatedStorage_get [.found ⟨some [1], 3⟩, .keyError] 2).cancelled =
      (replicatedStorage_get [.found ⟨some [1], 3⟩, .keyError] 2).launched ∧
    (replicatedStorage_get [.found ⟨some [1], 3⟩, .keyError] 2).result ≠
      .notEnoughReplicas :=
  cancellation_behavior.1 [.found ⟨some [1], 3⟩, .keyError] 2 (by decide) (by decide)

/-- C7 counterexample: an upsert with `ack = 1` and two launched tasks whose
first completion succeeds: the call returns ok having awaited only one task,
leaving one launched task outstanding, and issues zero `task.cancel()`
calls — the outstanding task is not cancelled before the call returns. -/
theorem upsert_leaves_tasks_uncancelled :
    (replicatedStorage_upsert [true, true] 1).result = .ok ∧
    (replicatedStorage_upsert [true, true] 1).processed = 1 ∧
    (replicatedStorage_upsert [true, true] 1).launched = 2 ∧
    (replicatedStorage_upsert [true, true] 1).cancelled = 0 := by
  exact ⟨rfl, rfl, rfl, rfl⟩

/-! ### Theorems about the GET response and `range` -/

/-- C6: a client-mode GET that resolves to a tombstone (or to an absent key)
returns 404, but the view builds the response with `not_found()`, which
never sets `x-last-modified` — even when the winning merged record is a
tombstone with a known timestamp (here 7). The claim requires the header to
carry that timestamp. -/
theorem tombstone_404_lacks_timestamp :
    entityView_get_response (.record ⟨none, 7⟩) = ⟨404, none, none⟩ ∧
    (entityView_get_response (.record ⟨none, 7⟩)).x_last_modified = none ∧
    entityView_get_response .notFound = ⟨404, none, none⟩ :=
  ⟨rfl, rfl, rfl⟩

/-- Helper: `nextkey` only ever returns a strictly greater key. -/
theorem nextkey_gt {K V : Type} [LinearOrder K] :
    ∀ (db : List (K × V)) (k k' : K), nextkey db k = some k' → k < k'
  | [], _, _, h => by simp [nextkey] at h
  | (k0, v0) :: rest, k, k', h => by
    by_cases hk : k < k0
    · rw [nextkey, if_pos hk] at h
      cases h
      exact hk
    · rw [nextkey, if_neg hk] at h
      exact nextkey_gt rest k k' h

/-- Helper: every pair yielded by the range loop has a key at least the
current key and never equal to `to_key`, and the yielded keys are strictly
ascending. -/
theorem rangeAux_spec {K V : Type} [LinearOrder K] (db : List (K × V))
    (to_key : Option K) :
    ∀ (fuel : Nat) (k : K),
      (∀ p ∈ rangeAux db to_key fuel (some k), k ≤ p.1 ∧ some p.1 ≠ to_key) ∧
      List.Pairwise (· < ·) ((rangeAux db to_key fuel (some k)).map Prod.fst)
  | 0, k => by simp [rangeAux]
  | fuel + 1, k => by
    by_cases hto : some k = to_key
    · simp [rangeAux, hto]
    · rw [rangeAux, if_neg hto]
      cases hget : dbGet db k with
      | none => simp
      | some v =>
        cases hnext : nextkey db k with
        | none =>
          have hrec : rangeAux db to_key fuel (none : Option K) = [] := by
            cases fuel <;> rfl
          simp only [hnext, hrec]
          refine ⟨?_, by simp⟩
          intro p hp
          rcases List.mem_singleton.mp hp with rfl
          exact ⟨le_refl _, hto⟩
        | some k' =>
          have hkk : k < k' := nextkey_gt db k k' hnext
          obtain ⟨ihmem, ihpair⟩ := rangeAux_spec db to_key fuel k'
          simp only [hnext]
          constructor
          · intro p hp
            rcases List.mem_cons.mp hp with h1 | h1
            · rw [h1]
              exact ⟨le_refl _, hto⟩
            · exact ⟨le_of_lt (lt_of_lt_of_le hkk (ihmem p h1).1), (ihmem p h1).2⟩
          · rw [List.map_cons, List.pairwise_cons]
            refine ⟨?_, ihpair⟩
            intro q hq
            rw [List.mem_map] at hq
            obtain ⟨p, hp, rfl⟩ := hq
            exact lt_of_lt_of_le hkk (ihmem p hp).1

/-- C9 counterexample: with the ordered map `{0 ↦ 10, 2 ↦ 20}`,
`range(0, to_key = 1)` yields the pair `(2, 20)` whose key `2 ≥ 1`: the loop
stops only when the iterator key *equals* `to_key`, so an absent `to_key` is
overshot. The claim says a key `≥ to_key` is never yielded. -/
theorem range_yields_beyond_absent_to_key :
    range [((0 : Nat), (10 : Nat)), (2, 20)] 0 (some 1) = [(0, 10), (2, 20)] ∧
    ¬∀ p ∈ range [((0 : Nat), (10 : Nat)), (2, 20)] 0 (some 1), p.1 < 1 :=
  ⟨rfl, by decide⟩

/-- C9 (amended): `range(from_key, to_key)` yields its pairs in strictly
ascending key order starting at `from_key`, and the `to_key` bound itself is
never yielded (the loop stops on exact equality with `to_key`, at the end of
the map, or on a missing key); keys *greater* than an absent `to_key` may
still be yielded. -/
theorem range_ascending_and_exclusive {K V : Type} [LinearOrder K]
    (db : List (K × V)) (from_key : K) (to_key : Option K) :
    List.Sorted (· < ·) ((range db from_key to_key).map Prod.fst) ∧
    ∀ p ∈ range db from_key to_key, from_key ≤ p.1 ∧ some p.1 ≠ to_key := by
  obtain ⟨hmem, hpair⟩ := rangeAux_spec db to_key (db.length + 1) from_key
  exact ⟨hpair, hmem⟩

/-! ### Theorems about the `replicas` validator -/

/-- C8 counterexample: the string `"1/2x"` does not match `^\d+/\d+$`
(rejected by the spec's rule), yet `check_replicas` accepts it as
`(ack, from_) = (1, 2)` because `re.match` is not anchored at the end. -/
theorem replicas_trailing_garbage_accepted :
    check_replicas ['1', '/', '2', 'x'] = some (1, 2) ∧
    replicas_spec_accepts ['1', '/', '2', 'x'] = false :=
  ⟨by decide, by decide⟩

/-- Helper: every element of `takeWhile p l` satisfies `p`. -/
theorem mem_takeWhile_sat {α : Type} (p : α → Bool) :
    ∀ (l : List α), ∀ c ∈ l.takeWhile p, p c = true
  | [] => by simp
  | a :: l => by
    by_cases hp : p a
    · rw [List.takeWhile_cons_of_pos hp]
      intro c hc
      obtain h1 | h1 := List.mem_cons.mp hc
      · subst h1; exact hp
      · exact mem_takeWhile_sat p l c h1
    · rw [List.takeWhile_cons_of_neg hp]
      simp

/-- Helper: the first element surviving `dropWhile p` fails `p`. -/
theorem dropWhile_first_not {α : Type} (p : α → Bool) :
    ∀ (l : List α), ∀ c ∈ (l.dropWhile p).take 1, p c = false
  | [] => by simp
  | a :: l => by
    by_cases hp : p a
    · rw [List.dropWhile_cons_of_pos hp]
      exact dropWhile_first_not p l
    · rw [List.dropWhile_cons_of_neg hp]
      intro c hc
      simp only [List.take_succ_cons, List.take_zero, List.mem_singleton] at hc
      subst hc
      exact Bool.not_eq_true _ ▸ hp

/-- Helper: `takeWhile`/`dropWhile` across an all-satisfying prefix followed
by a block whose first element fails the predicate. -/
theorem takeWhile_all_append {α : Type} (p : α → Bool) :
    ∀ (l t : List α), (∀ c ∈ l, p c = true) → (∀ c ∈ t.take 1, p c = false) →
      (l ++ t).takeWhile p = l ∧ (l ++ t).dropWhile p = t
  | [], t, _, ht => by
    cases t with
    | nil => simp
    | cons c t2 =>
      have hc : p c = false := ht c (by simp)
      constructor
      · show ([] ++ c :: t2).takeWhile p = []
        rw [List.nil_append]
        exact List.takeWhile_cons_of_neg (by simp [hc])
      · show ([] ++ c :: t2).dropWhile p = c :: t2
        rw [List.nil_append]
        exact List.dropWhile_cons_of_neg (by simp [hc])
  | a :: l, t, hl, ht => by
    have hpa : p a = true := hl a (by simp)
    have ih := takeWhile_all_append p l t (fun c hc => hl c (by simp [hc])) ht
    constructor
    · rw [List.cons_append, List.takeWhile_cons_of_pos hpa, ih.1]
    · rw [List.cons_append, List.dropWhile_cons_of_pos hpa, ih.2]

/-- C8 (amended): a `replicas` string is accepted exactly when it *starts
with* a `\d+/\d+` match — a non-empty greedy digit run, a slash, and a
non-empty greedy digit run, after which any trailing characters are
ignored — with both numbers positive and the first no larger than the
second; only strings without such a prefix (or with a bad pair) yield 400. -/
theorem check_replicas_prefix_characterization (value : List Char) (a f : Nat) :
    check_replicas value = some (a, f) ↔
      ∃ d1 d2 rest,
        value = d1 ++ '/' :: (d2 ++ rest) ∧
        d1 ≠ [] ∧ d2 ≠ [] ∧
        (∀ c ∈ d1, c.isDigit = true) ∧ (∀ c ∈ d2, c.isDigit = true) ∧
        (∀ c ∈ rest.take 1, c.isDigit = false) ∧
        a = digitsToNat d1 ∧ f = digitsToNat d2 ∧
        0 < a ∧ 0 < f ∧ a ≤ f := by
  constructor
  · intro h
    rw [check_replicas] at h
    by_cases h1 : value.takeWhile Char.isDigit = []
    · rw [if_pos h1] at h; cases h
    · rw [if_neg h1] at h
      cases hd : value.dropWhile Char.isDigit with
      | nil =>
        rw [hd] at h
        simp only [check_replicas_tail] at h
        cases h
      | cons c0 rest2 =>
        rw [hd] at h
        simp only [check_replicas_tail] at h
        by_cases hc : c0 = '/'
        · rw [if_pos hc] at h
          subst hc
          by_cases h2 : rest2.takeWhile Char.isDigit = []
          · rw [if_pos h2] at h; cases h
          · rw [if_neg h2] at h
            by_cases h3 : digitsToNat (rest2.takeWhile Char.isDigit) ≤ 0 ∨
                digitsToNat (value.takeWhile Char.isDigit) ≤ 0
            · rw [if_pos h3] at h; cases h
            · rw [if_neg h3] at h
              by_cases h4 : digitsToNat (rest2.takeWhile Char.isDigit) <
                  digitsToNat (value.takeWhile Char.isDigit)
              · rw [if_pos h4] at h; cases h
              · rw [if_neg h4] at h
                obtain ⟨ha, hf⟩ :
                    digitsToNat (value.takeWhile Char.isDigit) = a ∧
                    digitsToNat (rest2.takeWhile Char.isDigit) = f := by
                  simpa using h
                refine ⟨value.takeWhile Char.isDigit, rest2.takeWhile Char.isDigit,
                  rest2.dropWhile Char.isDigit, ?_, h1, h2,
                  mem_takeWhile_sat Char.isDigit value,
                  mem_takeWhile_sat Char.isDigit rest2,
                  dropWhile_first_not Char.isDigit rest2, ha.symm, hf.symm,
                  ?_, ?_, ?_⟩
                · conv_lhs => rw [← List.takeWhile_append_dropWhile Char.isDigit value]
                  rw [hd, List.takeWhile_append_dropWhile]
                · omega
                · omega
                · omega
        · rw [if_neg hc] at h; cases h
  · intro ⟨d1, d2, rest, hval, h1, h2, hd1, hd2, hrest, ha, hf, hpa, hpf, haf⟩
    have hsl : Char.isDigit '/' = false := rfl
    have houter := takeWhile_all_append Char.isDigit d1 ('/' :: (d2 ++ rest)) hd1
      (by intro c hc; simp only [List.take_succ_cons, List.take_zero,
            List.mem_singleton] at hc; subst hc; exact hsl)
    have hinner := takeWhile_all_append Char.isDigit d2 rest hd2 hrest
    simp only [check_replicas, hval, houter.1, houter.2, check_replicas_tail,
      hinner.1]
    rw [if_neg h1, if_pos trivial, if_neg h2,
      if_neg (by omega : ¬(digitsToNat d2 ≤ 0 ∨ digitsToNat d1 ≤ 0)),
      if_neg (by omega : ¬digitsToNat d2 < digitsToNat d1), ha, hf]

/-! ### Theorems about the URL round trip -/

/-- Helper: a successful single-scalar decode step re-encodes to exactly the
bytes it consumed. -/
theorem utf8Step_encode (b : Nat) (rest : List Nat) (c : Nat)
    (rest2 : List Nat) (h : utf8DecodeStep b rest = some (c, rest2)) :
    utf8EncodeChar c ++ rest2 = b :: rest := by
  rw [utf8DecodeStep] at h
  by_cases h1 : b < 128
  · rw [if_pos h1] at h
    obtain ⟨rfl, rfl⟩ : b = c ∧ rest = rest2 := by
      simpa using h
    rw [utf8EncodeChar, if_pos h1]
    rfl
  · rw [if_neg h1] at h
    by_cases h2 : b < 194
    · rw [if_pos h2] at h; cases h
    · rw [if_neg h2] at h
      by_cases h3 : b < 224
      · rw [if_pos h3] at h
        cases rest with
        | nil =>
          rw [show utf8Decode2 b [] = none from rfl] at h
          cases h
        | cons b1 r2 =>
          rw [utf8Decode2] at h
          by_cases h4 : 128 ≤ b1 ∧ b1 < 192
          · rw [if_pos h4] at h
            obtain ⟨rfl, rfl⟩ :
                (b - 192) * 64 + (b1 - 128) = c ∧ r2 = rest2 := by
              simpa using h
            rw [utf8EncodeChar, if_neg (by omega), if_pos (by omega)]
            have e1 : 192 + ((b - 192) * 64 + (b1 - 128)) / 64 = b := by omega
            have e2 : 128 + ((b - 192) * 64 + (b1 - 128)) % 64 = b1 := by omega
            rw [e1, e2]
            rfl
          · rw [if_neg h4] at h; cases h
      · rw [if_neg h3] at h
        by_cases h5 : b < 240
        · rw [if_pos h5] at h
          cases rest with
          | nil =>
            rw [show utf8Decode3 b [] = none from rfl] at h
            cases h
          | cons b1 rest1 =>
          cases rest1 with
          | nil =>
            rw [show utf8Decode3 b [b1] = none from rfl] at h
            cases h
          | cons b2 r2 =>
          rw [utf8Decode3] at h
          by_cases h4 : (if b = 224 then 160 ≤ b1 ∧ b1 < 192
              else if b = 237 then 128 ≤ b1 ∧ b1 < 160
              else 128 ≤ b1 ∧ b1 < 192) ∧ 128 ≤ b2 ∧ b2 < 192
          · rw [if_pos h4] at h
            obtain ⟨hg1, hb2, hb2h⟩ := h4
            have hb1 : 128 ≤ b1 ∧ b1 < 192 := by
              by_cases e : b = 224
              · rw [if_pos e] at hg1; omega
              · rw [if_neg e] at hg1
                by_cases e2 : b = 237
                · rw [if_pos e2] at hg1; omega
                · rw [if_neg e2] at hg1; omega
            have hcge : 2048 ≤
                ((b - 224) * 64 + (b1 - 128)) * 64 + (b2 - 128) := by
              by_cases e : b = 224
              · subst e
                rw [if_pos rfl] at hg1
                omega
              · omega
            obtain ⟨rfl, rfl⟩ :
                ((b - 224) * 64 + (b1 - 128)) * 64 + (b2 - 128) = c ∧
                  r2 = rest2 := by
              simpa using h
            rw [utf8EncodeChar, if_neg (by omega), if_neg (by omega),
              if_pos (by omega)]
            have e1 : 224 + (((b - 224) * 64 + (b1 - 128)) * 64 + (b2 - 128))
                / 4096 = b := by omega
            have e2 : 128 + (((b - 224) * 64 + (b1 - 128)) * 64 + (b2 - 128))
                / 64 % 64 = b1 := by omega
            have e3 : 128 + (((b - 224) * 64 + (b1 - 128)) * 64 + (b2 - 128))
                % 64 = b2 := by omega
            rw [e1, e2, e3]
            rfl
          · rw [if_neg h4] at h; cases h
        · rw [if_neg h5] at h
          by_cases h6 : b < 245
          · rw [if_pos h6] at h
            cases rest with
            | nil =>
              rw [show utf8Decode4 b [] = none from rfl] at h
              cases h
            | cons b1 rest1 =>
            cases rest1 with
            | nil =>
              rw [show utf8Decode4 b [b1] = none from rfl] at h
              cases h
            | cons b2 rest12 =>
            cases rest12 with
            | nil =>
              rw [show utf8Decode4 b [b1, b2] = none from rfl] at h
              cases h
            | cons b3 r2 =>
            rw [utf8Decode4] at h
            by_cases h4 : (if b = 240 then 144 ≤ b1 ∧ b1 < 192
                else if b = 244 then 128 ≤ b1 ∧ b1 < 144
                else 128 ≤ b1 ∧ b1 < 192) ∧ 128 ≤ b2 ∧ b2 < 192 ∧
                128 ≤ b3 ∧ b3 < 192
            · rw [if_pos h4] at h
              obtain ⟨hg1, hb2, hb2h, hb3, hb3h⟩ := h4
              have hb1 : 128 ≤ b1 ∧ b1 < 192 := by
                by_cases e : b = 240
                · rw [if_pos e] at hg1; omega
                · rw [if_neg e] at hg1
                  by_cases e2 : b = 244
                  · rw [if_pos e2] at hg1; omega
                  · rw [if_neg e2] at hg1; omega
              have hcge : 65536 ≤
                  (((b - 240) * 64 + (b1 - 128)) * 64 + (b2 - 128)) * 64
                    + (b3 - 128) := by
                by_cases e : b = 240
                · subst e
                  rw [if_pos rfl] at hg1
                  omega
                · omega
              obtain ⟨rfl, rfl⟩ :
                  (((b - 240) * 64 + (b1 - 128)) * 64 + (b2 - 128)) * 64
                    + (b3 - 128) = c ∧ r2 = rest2 := by
                simpa using h
              rw [utf8EncodeChar, if_neg (by omega), if_neg (by omega),
                if_neg (by omega)]
              have e1 : 240 + ((((b - 240) * 64 + (b1 - 128)) * 64
                  + (b2 - 128)) * 64 + (b3 - 128)) / 262144 = b := by omega
              have e2 : 128 + ((((b - 240) * 64 + (b1 - 128)) * 64
                  + (b2 - 128)) * 64 + (b3 - 128)) / 4096 % 64 = b1 := by
                omega
              have e3 : 128 + ((((b - 240) * 64 + (b1 - 128)) * 64
                  + (b2 - 128)) * 64 + (b3 - 128)) / 64 % 64 = b2 := by omega
              have e4 : 128 + ((((b - 240) * 64 + (b1 - 128)) * 64
                  + (b2 - 128)) * 64 + (b3 - 128)) % 64 = b3 := by omega
              rw [e1, e2, e3, e4]
              rfl
            · rw [if_neg h4] at h; cases h
          · rw [if_neg h6] at h; cases h

/-- Helper: UTF-8 decoding inverts encoding — a byte string that strictly
decodes re-encodes to itself (for any fuel). -/
theorem utf8DecodeAux_encode :
    ∀ (fuel : Nat) (bs cs : List Nat),
      utf8DecodeAux fuel bs = some cs → utf8Encode cs = bs
  | _, [], cs, h => by
    simp only [utf8DecodeAux, Option.some.injEq] at h
    subst h
    rfl
  | 0, _ :: _, cs, h => by rw [utf8DecodeAux] at h; cases h
  | fuel + 1, b :: rest, cs, h => by
    rw [utf8DecodeAux] at h
    cases hs : utf8DecodeStep b rest with
    | none => rw [hs] at h; cases h
    | some pr =>
      obtain ⟨c, rest2⟩ := pr
      rw [hs] at h
      replace h : (utf8DecodeAux fuel rest2).map (c :: ·) = some cs := h
      cases hr : utf8DecodeAux fuel rest2 with
      | none => rw [hr] at h; cases h
      | some cs2 =>
        rw [hr] at h
        simp only [Option.map_some', Option.some.injEq] at h
        subst h
        rw [utf8Encode, utf8DecodeAux_encode fuel rest2 cs2 hr,
          utf8Step_encode b rest c rest2 hs]

/-- Helper: specialization to the entry point. -/
theorem utf8_decode_encode (bs cs : List Nat) (h : utf8Decode bs = some cs) :
    utf8Encode cs = bs :=
  utf8DecodeAux_encode bs.length bs cs h

/-- Helper: `hexVal` inverts `hexDigit` on nibbles. -/
theorem hexVal_hexDigit (n : Nat) (h : n < 16) : hexVal (hexDigit n) = some n := by
  by_cases h10 : n < 10
  · rw [hexDigit, if_pos h10, hexVal, if_pos (by omega)]
    congr 1
    omega
  · rw [hexDigit, if_neg h10, hexVal, if_neg (by omega), if_pos (by omega)]
    congr 1
    omega

/-- Helper: a safe byte is not `+`, `%`, or space. -/
theorem isUrlSafe_ne (b : Nat) (h : isUrlSafe b = true) :
    b ≠ 43 ∧ b ≠ 37 ∧ b ≠ 32 := by
  simp only [isUrlSafe, Bool.or_eq_true, Bool.and_eq_true, decide_eq_true_eq,
    beq_iff_eq] at h
  omega

/-- Helper: `hexPair` inverts the two emitted hex digits of a byte. -/
theorem hexPair_hexDigit (b : Nat) (t : List Nat) (h : b < 256) :
    hexPair (hexDigit (b / 16) :: hexDigit (b % 16) :: t) = some (b, t) := by
  rw [hexPair, hexVal_hexDigit (b / 16) (by omega),
    hexVal_hexDigit (b % 16) (by omega)]
  show (some (b / 16 * 16 + b % 16, t) : Option (Nat × List Nat)) = some (b, t)
  have e : b / 16 * 16 + b % 16 = b := by omega
  rw [e]

/-- Helper: percent-decoding inverts percent-encoding of a byte string, for
any sufficient fuel. -/
theorem percentDecodeAux_encode :
    ∀ (bs : List Nat) (fuel : Nat), (∀ b ∈ bs, b < 256) →
      (percentEncode bs).length ≤ fuel →
      percentDecodeAux fuel (percentEncode bs) = bs
  | [], fuel, _, _ => by cases fuel <;> rfl
  | b :: rest, fuel, hb, hf => by
    have hb256 : b < 256 := hb b (by simp)
    have hbrest : ∀ x ∈ rest, x < 256 := fun x hx => hb x (by simp [hx])
    rw [percentEncode] at hf ⊢
    by_cases hs : isUrlSafe b
    · obtain ⟨h43, h37, _⟩ := isUrlSafe_ne b hs
      rw [if_pos hs] at hf ⊢
      cases fuel with
      | zero => simp at hf
      | succ f =>
        rw [List.singleton_append, percentDecodeAux, if_neg h43, if_neg h37]
        congr 1
        exact percentDecodeAux_encode rest f hbrest
          (by simp only [List.singleton_append, List.length_cons] at hf; omega)
    · rw [if_neg hs] at hf ⊢
      by_cases h32 : b = 32
      · rw [if_pos h32] at hf ⊢
        cases fuel with
        | zero => simp at hf
        | succ f =>
          rw [List.singleton_append, percentDecodeAux, if_pos rfl, h32]
          congr 1
          exact percentDecodeAux_encode rest f hbrest
            (by simp only [List.singleton_append, List.length_cons] at hf; omega)
      · rw [if_neg h32] at hf ⊢
        cases fuel with
        | zero => simp at hf
        | succ f =>
          simp only [List.cons_append, List.nil_append]
          rw [percentDecodeAux, if_neg (by decide), if_pos rfl,
            hexPair_hexDigit b (percentEncode rest) hb256]
          show b :: percentDecodeAux f (percentEncode rest) = b :: rest
          congr 1
          exact percentDecodeAux_encode rest f hbrest
            (by simp only [List.cons_append, List.nil_append,
                  List.length_cons] at hf
                omega)

/-- Helper: the percent round trip at the entry point. -/
theorem percentDecode_encode (bs : List Nat) (hb : ∀ b ∈ bs, b < 256) :
    percentDecode (percentEncode bs) = bs :=
  percentDecodeAux_encode bs (percentEncode bs).length hb (Nat.le_refl _)

/-- C10: for every non-empty key of bytes that decode as strict UTF-8,
building the internal-hop `id` query value and re-parsing it on the
receiving node yields exactly the original key bytes; for a key that is not
valid UTF-8, building the URL fails (`key.decode()` raises), so such a key
is never sent to a remote replica. -/
theorem url_for_roundtrip (key : List Nat) (hb : ∀ b ∈ key, b < 256) :
    (utf8Decode key = none → url_for_id key = none) ∧
    (key ≠ [] → ∀ cs, utf8Decode key = some cs →
      ∃ q, url_for_id key = some q ∧ parse_id q = some key) := by
  constructor
  · intro h
    rw [url_for_id, h]
  · intro hne cs hcs
    have henc : utf8Encode cs = key := utf8_decode_encode key cs hcs
    have hpd : percentDecode (percentEncode key) = key :=
      percentDecode_encode key hb
    refine ⟨percentEncode key, ?_, ?_⟩
    · rw [url_for_id, hcs]
      show some (percentEncode (utf8Encode cs)) = some (percentEncode key)
      rw [henc]
    · rw [parse_id, hpd, hcs]
      show (if utf8Encode cs = [] then none else some (utf8Encode cs))
        = some key
      rw [henc, if_neg hne]

/-- Witness for `url_for_roundtrip` on the key `"ké"`
(bytes `6B C3 A9`, decoding to code points `6B E9`): the `id` value is
`"k%C3%A9"` and parsing returns the original bytes; the hypotheses are
discharged by evaluation. -/
theorem url_for_roundtrip_witness :
    ∃ q, url_for_id [107, 195, 169] = some q ∧
      parse_id q = some [107, 195, 169] :=
  (url_for_roundtrip [107, 195, 169] (by decide)).2 (by decide)
    [107, 233] (by decide)

end PyDHT
